import Mathlib

/-!
# Verification of the QLoRA fine-tuning desktop app (frontend core)

Shallow embedding of the job-lifecycle / dataset / API-client logic of the
repository. Strings are modelled as `List Char`; the JavaScript builtins the
source calls (`String.prototype.trim`, `String.prototype.split`,
`JSON.parse`, `JSON.stringify`) are embedded as executable Lean functions
mirroring their ECMAScript semantics on the inputs in question.
-/

namespace QloraApp

/-! ## JavaScript string primitives -/

/-- The ECMAScript `WhiteSpace`/`LineTerminator` characters recognised by
`String.prototype.trim` (the set relevant to the source's inputs). -/
def isJsTrimWs (c : Char) : Bool :=
  c = ' ' || c = '\t' || c = '\n' || c = '\r' ||
  c = '\x0b' || c = '\x0c' || c.toNat = 0xa0 || c.toNat = 0xfeff ||
  c.toNat = 0x2028 || c.toNat = 0x2029

/-- Left part of `String.prototype.trim`. -/
def trimLeft (l : List Char) : List Char := l.dropWhile isJsTrimWs

/-- Right part of `String.prototype.trim`. -/
def trimRight (l : List Char) : List Char := (l.reverse.dropWhile isJsTrimWs).reverse

/-- JS `String.prototype.trim`. -/
def jsTrim (l : List Char) : List Char := trimRight (trimLeft l)

/-- JS `String.prototype.split(sep)` for a one-character separator: splits into
the (possibly empty) chunks between occurrences of `sep`.  On the empty
string JavaScript returns `[""]`, matching the base case. -/
def splitOnC (sep : Char) : List Char → List (List Char)
  | [] => [[]]
  | c :: cs =>
    if c = sep then [] :: splitOnC sep cs
    else
      match splitOnC sep cs with
      | [] => [[c]]
      | l :: ls => (c :: l) :: ls

/-- JS `Array.prototype.join(sep)` for a one-character separator. -/
def joinC (sep : Char) : List (List Char) → List Char
  | [] => []
  | [l] => l
  | l :: ls => l ++ sep :: joinC sep ls

theorem splitOnC_ne_nil (sep : Char) (l : List Char) : splitOnC sep l ≠ [] := by
  induction l with
  | nil => simp [splitOnC]
  | cons c cs ih =>
    simp only [splitOnC]
    split
    · simp
    · cases h : splitOnC sep cs with
      | nil => simp
      | cons a as => simp

theorem splitOnC_length (sep : Char) (l : List Char) :
    (splitOnC sep l).length = l.count sep + 1 := by
  induction l with
  | nil => simp [splitOnC]
  | cons c cs ih =>
    simp only [splitOnC]
    split
    · rename_i h
      simp [List.count_cons, h, ih]
    · rename_i h
      cases hs : splitOnC sep cs with
      | nil => exact absurd hs (splitOnC_ne_nil sep cs)
      | cons a as =>
        rw [hs] at ih
        simp only [List.length_cons] at ih ⊢
        simp [List.count_cons, h, ih]

theorem splitOnC_append_of_not_mem (sep : Char) (a b : List Char) (ha : sep ∉ a) :
    splitOnC sep (a ++ sep :: b) = a :: splitOnC sep b := by
  induction a with
  | nil => simp [splitOnC]
  | cons c cs ih =>
    simp only [List.mem_cons, not_or] at ha
    have h1 : ¬(c = sep) := fun h => ha.1 h.symm
    simp only [List.cons_append, splitOnC, List.append_eq, if_neg h1, ih ha.2]

theorem splitOnC_of_not_mem (sep : Char) (l : List Char) (hl : sep ∉ l) :
    splitOnC sep l = [l] := by
  induction l with
  | nil => simp [splitOnC]
  | cons c cs ih =>
    simp only [List.mem_cons, not_or] at hl
    have h1 : ¬(c = sep) := fun h => hl.1 h.symm
    simp only [splitOnC, if_neg h1, ih hl.2]

theorem splitOnC_joinC (sep : Char) (L : List (List Char)) (hne : L ≠ [])
    (hfree : ∀ l ∈ L, sep ∉ l) :
    splitOnC sep (joinC sep L) = L := by
  induction L with
  | nil => exact absurd rfl hne
  | cons l ls ih =>
    cases ls with
    | nil => simpa [joinC] using splitOnC_of_not_mem sep l (hfree l (by simp))
    | cons m ms =>
      have : joinC sep (l :: m :: ms) = l ++ sep :: joinC sep (m :: ms) := rfl
      rw [this, splitOnC_append_of_not_mem sep _ _ (hfree l (by simp))]
      rw [ih (by simp) (fun x hx => hfree x (by simp [hx]))]

/-- Splitting the join of `d :: ds` on the separator produces
`ds.length + 1` chunks, independent of chunk contents, because the join
contains exactly `ds.length` separators when every chunk is separator-free. -/
theorem count_joinC (sep : Char) (L : List (List Char)) (hfree : ∀ l ∈ L, sep ∉ l) :
    (joinC sep L).count sep = L.length - 1 := by
  induction L with
  | nil => simp [joinC]
  | cons l ls ih =>
    cases ls with
    | nil =>
      simp only [joinC, List.length_cons]
      rw [List.count_eq_zero.mpr (hfree l (by simp))]
      simp
    | cons m ms =>
      have hj : joinC sep (l :: m :: ms) = l ++ sep :: joinC sep (m :: ms) := rfl
      rw [hj]
      rw [List.count_append, List.count_cons]
      rw [List.count_eq_zero.mpr (hfree l (by simp))]
      rw [ih (fun x hx => hfree x (by simp [hx]))]
      simp

/-- Lemma: `dropWhile` distributes over an append whose first part contains a
witness failing the predicate. -/
theorem dropWhile_append_of_exists (p : Char → Bool) (a b : List Char)
    (h : ∃ x ∈ a, p x = false) :
    (a ++ b).dropWhile p = a.dropWhile p ++ b := by
  induction a with
  | nil => simp at h
  | cons c cs ih =>
    by_cases hc : p c = true
    · simp only [List.cons_append, List.dropWhile_cons, hc, if_true]
      apply ih
      obtain ⟨x, hx, hpx⟩ := h
      rcases List.mem_cons.mp hx with rfl | hx'
      · rw [hc] at hpx; cases hpx
      · exact ⟨x, hx', hpx⟩
    · have hc' : p c = false := by simpa using hc
      simp only [List.cons_append, List.dropWhile_cons, hc', if_false,
        Bool.false_eq_true]

theorem count_dropWhile_le (p : Char → Bool) (c : Char) (l : List Char) :
    (l.dropWhile p).count c ≤ l.count c :=
  (List.dropWhile_sublist p (l := l)).count_le c

theorem dropWhile_eq_self_of_head (p : Char → Bool) (c : Char) (cs : List Char)
    (h : p c = false) : (c :: cs).dropWhile p = c :: cs := by
  simp [List.dropWhile_cons, h]

theorem jsTrim_eq_self (c d : Char) (m : List Char)
    (hc : isJsTrimWs c = false) (hd : isJsTrimWs d = false) :
    jsTrim (c :: m ++ [d]) = c :: m ++ [d] := by
  have h1 : trimLeft (c :: (m ++ [d])) = c :: (m ++ [d]) :=
    dropWhile_eq_self_of_head _ c (m ++ [d]) hc
  have h2 : (c :: m ++ [d]).reverse = d :: (m.reverse ++ [c]) := by
    simp
  unfold jsTrim trimRight trimLeft
  rw [show (c :: m ++ [d]).dropWhile isJsTrimWs = c :: m ++ [d] from h1]
  rw [h2, dropWhile_eq_self_of_head _ d (m.reverse ++ [c]) hd]
  have h3 := congrArg List.reverse h2.symm
  simp only [List.reverse_reverse] at h3
  simp [h3]


/-! ## JSON values, `JSON.parse` and `JSON.stringify`

The source delegates JSON handling to the JavaScript builtins; they are
embedded here as executable functions.  Numbers are kept as their source
lexemes (their numeric value is IEEE floating point, which no claim
depends on). -/

inductive Json where
  | null : Json
  | bool (b : Bool) : Json
  | num (lexeme : List Char) : Json
  | str (s : List Char) : Json
  | arr (elems : List Json) : Json
  | obj (fields : List (List Char × Json)) : Json

/-- JS `Array.isArray`. -/
def Json.isArr : Json → Bool
  | .arr _ => true
  | _ => false

/-- The whitespace characters `JSON.parse` skips between tokens. -/
def isJsonWs (c : Char) : Bool :=
  c = ' ' || c = '\t' || c = '\n' || c = '\r'

def skipWs (l : List Char) : List Char := l.dropWhile isJsonWs

def hexVal (c : Char) : Option Nat :=
  if c = '0' then some 0 else if c = '1' then some 1
  else if c = '2' then some 2 else if c = '3' then some 3
  else if c = '4' then some 4 else if c = '5' then some 5
  else if c = '6' then some 6 else if c = '7' then some 7
  else if c = '8' then some 8 else if c = '9' then some 9
  else if c = 'a' ∨ c = 'A' then some 10 else if c = 'b' ∨ c = 'B' then some 11
  else if c = 'c' ∨ c = 'C' then some 12 else if c = 'd' ∨ c = 'D' then some 13
  else if c = 'e' ∨ c = 'E' then some 14 else if c = 'f' ∨ c = 'F' then some 15
  else none

/-- Body of a JSON string literal, after the opening quote: unescapes up to
the closing quote and returns the decoded characters and the remaining
input.  Unescaped control characters (U+0000 to U+001F) are rejected, as
the JSON grammar requires.  Code points outside Lean's scalar values
(lone surrogates) fall back to `Char.ofNat`'s default. -/
def parseStringBody : List Char → Option (List Char × List Char)
  | [] => none
  | '"' :: rest => some ([], rest)
  | '\\' :: esc =>
    match esc with
    | '"' :: rest => (parseStringBody rest).map (fun p => ('"' :: p.1, p.2))
    | '\\' :: rest => (parseStringBody rest).map (fun p => ('\\' :: p.1, p.2))
    | '/' :: rest => (parseStringBody rest).map (fun p => ('/' :: p.1, p.2))
    | 'b' :: rest => (parseStringBody rest).map (fun p => ('\x08' :: p.1, p.2))
    | 'f' :: rest => (parseStringBody rest).map (fun p => ('\x0c' :: p.1, p.2))
    | 'n' :: rest => (parseStringBody rest).map (fun p => ('\n' :: p.1, p.2))
    | 'r' :: rest => (parseStringBody rest).map (fun p => ('\r' :: p.1, p.2))
    | 't' :: rest => (parseStringBody rest).map (fun p => ('\t' :: p.1, p.2))
    | 'u' :: h1 :: h2 :: h3 :: h4 :: rest =>
      match hexVal h1, hexVal h2, hexVal h3, hexVal h4 with
      | some x1, some x2, some x3, some x4 =>
        (parseStringBody rest).map
          (fun p => (Char.ofNat (4096 * x1 + 256 * x2 + 16 * x3 + x4) :: p.1, p.2))
      | _, _, _, _ => none
    | _ => none
  | c :: rest =>
    if c.toNat < 32 then none
    else (parseStringBody rest).map (fun p => (c :: p.1, p.2))

def isDigit (c : Char) : Bool := 48 ≤ c.toNat && c.toNat ≤ 57

/-- Fraction part of a JSON number token (possibly empty). -/
def numFracTok : List Char → Option (List Char × List Char)
  | '.' :: r =>
    match r.span isDigit with
    | ([], _) => none
    | (ds, r2) => some ('.' :: ds, r2)
  | cs => some ([], cs)

/-- Exponent part of a JSON number token (possibly empty). -/
def numExpTok : List Char → Option (List Char × List Char)
  | [] => some ([], [])
  | e :: r =>
    if e = 'e' ∨ e = 'E' then
      let (sg, r1) :=
        match r with
        | '+' :: rr => (['+'], rr)
        | '-' :: rr => (['-'], rr)
        | _ => (([] : List Char), r)
      match r1.span isDigit with
      | ([], _) => none
      | (ds, r2) => some (e :: (sg ++ ds), r2)
    else some ([], e :: r)

/-- A JSON number token: optional minus, integer part with no leading
zeros, optional fraction and exponent.  Returns the lexeme and the rest. -/
def parseNumberTok (cs : List Char) : Option (List Char × List Char) :=
  let (sgn, cs1) :=
    match cs with
    | '-' :: r => ((['-'] : List Char), r)
    | _ => (([] : List Char), cs)
  match cs1 with
  | [] => none
  | c :: r =>
    match
      (if c = '0' then some ((['0'] : List Char), r)
       else if isDigit c then
         match r.span isDigit with
         | (ds, r2) => some (c :: ds, r2)
       else none) with
    | none => none
    | some (ip, r2) =>
      match numFracTok r2 with
      | none => none
      | some (fr, r3) =>
        match numExpTok r3 with
        | none => none
        | some (ex, r4) => some (sgn ++ ip ++ fr ++ ex, r4)

/-- Parsing mode for `parseCore`: a full value, or the continuation of an
array / object after the first element. -/
inductive PMode where
  | value : PMode
  | arrayRest : PMode
  | objectRest : PMode
deriving DecidableEq

/-- The grammar of `JSON.parse`, by recursion on a fuel bound (each unit of
fuel spent corresponds to at least one consumed input character, so
`input.length + 1` fuel always suffices).  In modes `arrayRest` /
`objectRest` the result is the `Json.arr` / `Json.obj` of the remaining
elements. -/
def parseCore : Nat → PMode → List Char → Option (Json × List Char)
  | 0, _, _ => none
  | fuel + 1, .value, cs =>
    match skipWs cs with
    | 'n' :: 'u' :: 'l' :: 'l' :: rest => some (.null, rest)
    | 't' :: 'r' :: 'u' :: 'e' :: rest => some (.bool true, rest)
    | 'f' :: 'a' :: 'l' :: 's' :: 'e' :: rest => some (.bool false, rest)
    | '"' :: rest =>
      match parseStringBody rest with
      | some (s, r) => some (.str s, r)
      | none => none
    | '[' :: rest =>
      match skipWs rest with
      | ']' :: rest2 => some (.arr [], rest2)
      | _ =>
        match parseCore fuel .value rest with
        | some (v, r) =>
          match parseCore fuel .arrayRest r with
          | some (.arr vs, r2) => some (.arr (v :: vs), r2)
          | _ => none
        | none => none
    | '{' :: rest =>
      match skipWs rest with
      | '}' :: rest2 => some (.obj [], rest2)
      | '"' :: rest2 =>
        match parseStringBody rest2 with
        | some (k, r) =>
          match skipWs r with
          | ':' :: r2 =>
            match parseCore fuel .value r2 with
            | some (v, r3) =>
              match parseCore fuel .objectRest r3 with
              | some (.obj fs, r4) => some (.obj ((k, v) :: fs), r4)
              | _ => none
            | none => none
          | _ => none
        | none => none
      | _ => none
    | rest =>
      match parseNumberTok rest with
      | some (lex, r) => some (.num lex, r)
      | none => none
  | fuel + 1, .arrayRest, cs =>
    match skipWs cs with
    | ']' :: rest => some (.arr [], rest)
    | ',' :: rest =>
      match parseCore fuel .value rest with
      | some (v, r) =>
        match parseCore fuel .arrayRest r with
        | some (.arr vs, r2) => some (.arr (v :: vs), r2)
        | _ => none
      | none => none
    | _ => none
  | fuel + 1, .objectRest, cs =>
    match skipWs cs with
    | '}' :: rest => some (.obj [], rest)
    | ',' :: rest =>
      match skipWs rest with
      | '"' :: rest2 =>
        match parseStringBody rest2 with
        | some (k, r) =>
          match skipWs r with
          | ':' :: r2 =>
            match parseCore fuel .value r2 with
            | some (v, r3) =>
              match parseCore fuel .objectRest r3 with
              | some (.obj fs, r4) => some (.obj ((k, v) :: fs), r4)
              | _ => none
            | none => none
          | _ => none
        | none => none
      | _ => none
    | _ => none

/-- JS `JSON.parse`: a full value followed only by whitespace. -/
def jsonParse (cs : List Char) : Option Json :=
  match parseCore (cs.length + 1) .value cs with
  | some (v, rest) => if skipWs rest = [] then some v else none
  | none => none


/-! ## `JSON.stringify` for the shapes the source serializes -/

/-- Lower-case hex digit, used by `JSON.stringify` control-character
escapes. -/
def hexDigitLc : Nat → Char
  | 0 => '0' | 1 => '1' | 2 => '2' | 3 => '3' | 4 => '4'
  | 5 => '5' | 6 => '6' | 7 => '7' | 8 => '8' | 9 => '9'
  | 10 => 'a' | 11 => 'b' | 12 => 'c' | 13 => 'd' | 14 => 'e' | 15 => 'f'
  | _ => '0'

/-- The escaping `JSON.stringify` applies inside string literals. -/
def escapeChar (c : Char) : List Char :=
  if c = '"' then ['\\', '"']
  else if c = '\\' then ['\\', '\\']
  else if c = '\x08' then ['\\', 'b']
  else if c = '\x0c' then ['\\', 'f']
  else if c = '\n' then ['\\', 'n']
  else if c = '\r' then ['\\', 'r']
  else if c = '\t' then ['\\', 't']
  else if c.toNat < 32 then
    ['\\', 'u', '0', '0', hexDigitLc (c.toNat / 16), hexDigitLc (c.toNat % 16)]
  else [c]

def escapeStr (str : List Char) : List Char := (str.map escapeChar).flatten

/-- A JSON string literal for `str`, quotes included. -/
def quoteStr (str : List Char) : List Char := '"' :: escapeStr str ++ ['"']

/-- One row of the dataset editor (`types/dataset.ts`). -/
structure CSVRow where
  instruction : List Char
  input : List Char
  output : List Char

def keyInstruction : List Char := "instruction".toList
def keyInput : List Char := "input".toList
def keyOutput : List Char := "output".toList

/-- JS `JSON.stringify(row)` (compact, as used for the JSONL lines). -/
def stringifyRowC (r : CSVRow) : List Char :=
  '{' :: quoteStr keyInstruction ++ ':' :: quoteStr r.instruction ++
  ',' :: quoteStr keyInput ++ ':' :: quoteStr r.input ++
  ',' :: quoteStr keyOutput ++ ':' :: quoteStr r.output ++ ['}']

/-- The members of one row object as `JSON.stringify(rows, null, 2)`
prints them after the opening brace: four-space member indent, two-space
closing-brace indent. -/
def rowBody (r : CSVRow) : List Char :=
  '\n' :: ' ' :: ' ' :: ' ' :: ' ' ::
    quoteStr keyInstruction ++ ':' :: ' ' :: quoteStr r.instruction ++
  ',' :: '\n' :: ' ' :: ' ' :: ' ' :: ' ' ::
    quoteStr keyInput ++ ':' :: ' ' :: quoteStr r.input ++
  ',' :: '\n' :: ' ' :: ' ' :: ' ' :: ' ' ::
    quoteStr keyOutput ++ ':' :: ' ' :: quoteStr r.output ++
  '\n' :: ' ' :: ' ' :: ['}']

/-- One row as `JSON.stringify(rows, null, 2)` prints it inside the
top-level array. -/
def prettyRow (r : CSVRow) : List Char := ' ' :: ' ' :: '{' :: rowBody r

/-- Join of pretty-printed array elements: separated by `",\n"`. -/
def joinPretty : List (List Char) → List Char
  | [] => []
  | [l] => l
  | l :: ls => l ++ ',' :: '\n' :: joinPretty ls

/-- JS `JSON.stringify(rows, null, 2)` for the row array. -/
def stringifyRowsPretty (rows : List CSVRow) : List Char :=
  match rows with
  | [] => ['[', ']']
  | _ => '[' :: '\n' :: joinPretty (rows.map prettyRow) ++ '\n' :: [']']

/-- The `Json` value `JSON.parse` recovers for one serialized row. -/
def rowJson (r : CSVRow) : Json :=
  .obj [(keyInstruction, .str r.instruction),
        (keyInput, .str r.input),
        (keyOutput, .str r.output)]

/-! ## Dataset utilities (`utils/dataset.ts`, via `WINDOWS_BUILD.md`) -/

/-- The `row.field.replace` escaping (quote doubling) of the CSV serializer. -/
def csvEscape (str : List Char) : List Char :=
  (str.map (fun c => if c = '"' then ['"', '"'] else [c])).flatten

def csvHeader : List Char := "instruction,input,output".toList

/-- One CSV line of `convertRowsToFormat`. -/
def csvLine (r : CSVRow) : List Char :=
  '"' :: csvEscape r.instruction ++ '"' :: ',' ::
  '"' :: csvEscape r.input ++ '"' :: ',' ::
  '"' :: csvEscape r.output ++ ['"']

inductive DatasetFormat where
  | json : DatasetFormat
  | jsonl : DatasetFormat
  | csv : DatasetFormat
deriving DecidableEq

/-- The source function `convertRowsToFormat(rows, format)`. -/
def convertRowsToFormat (rows : List CSVRow) : DatasetFormat → List Char
  | .json => stringifyRowsPretty rows
  | .jsonl => joinC '\n' (rows.map stringifyRowC)
  | .csv => joinC '\n' (csvHeader :: rows.map csvLine)

/-- The extension computation `name.split(".").pop()?.toLowerCase()`. -/
def extOf (name : List Char) : List Char :=
  ((splitOnC '.' name).getLast (splitOnC_ne_nil '.' name)).map Char.toLower

/-- The source function `parseFileForSampleCount`, as a function of the file's name and its
text content (the `FileReader` plumbing resolves with the file text; the
`try`/`catch` catches exactly the `JSON.parse` failure). -/
def parseFileForSampleCount (fileName content : List Char) : Nat :=
  let ext := extOf fileName
  if ext = "json".toList then
    match jsonParse content with
    | some (Json.arr xs) => xs.length
    | some _ => 1
    | none => 0
  else if ext = "jsonl".toList then
    ((splitOnC '\n' (jsTrim content)).filter (fun l => !(jsTrim l).isEmpty)).length
  else if ext = "csv".toList then
    (max 0 (((splitOnC '\n' (jsTrim content)).length : Int) - 1)).toNat
  else 0

/-- The dataset record the page POSTs (`types/dataset.ts`).  `sizeBytes`
keeps the raw blob/file byte count; the UI renders it through
`formatFileSize`, a floating-point display concern not modelled. -/
structure Dataset where
  id : List Char
  name : List Char
  samples : Nat
  sizeBytes : Nat
  format : List Char
  createdAt : List Char
  content : Option (List Char)

def DatasetFormat.upper : DatasetFormat → List Char
  | .json => "JSON".toList
  | .jsonl => "JSONL".toList
  | .csv => "CSV".toList

/-- UTF-8 byte count (`new Blob([content]).size`). -/
def utf8Len (l : List Char) : Nat := (l.map Char.utf8Size).sum

/-- The rename `name.replace` dropping a final dot-extension. -/
def stripLastExt (name : List Char) : List Char :=
  let (seg, rest) := name.reverse.span (fun c => !(c = '.' || c = '/'))
  match rest with
  | '.' :: before => if seg = [] then name else before.reverse
  | _ => name

/-- The `create` branch of `handleSaveDataset` (datasets page): the dataset
record it builds and POSTs.  `now` is `Date.now()`, `today` the ISO date. -/
def handleSaveCreate (now : Nat) (today datasetName : List Char)
    (rows : List CSVRow) (fmt : DatasetFormat) : Dataset :=
  let content := convertRowsToFormat rows fmt
  { id := "ds-".toList ++ (toString now).toList
    name := datasetName
    samples := rows.length
    sizeBytes := utf8Len content
    format := fmt.upper
    createdAt := today
    content := some content }

/-- The `upload` branch of `handleSaveDataset`: the record built from an
uploaded file; the format falls back to `UNKNOWN` when the upper-cased
extension is empty. -/
def handleSaveUpload (now : Nat) (today fileName content : List Char)
    (fileSizeBytes : Nat) : Dataset :=
  { id := "ds-".toList ++ (toString now).toList
    name := stripLastExt fileName
    samples := parseFileForSampleCount fileName content
    sizeBytes := fileSizeBytes
    format :=
      (let e := ((splitOnC '.' fileName).getLast
        (splitOnC_ne_nil '.' fileName)).map Char.toUpper
      if e.isEmpty then "UNKNOWN".toList else e)
    createdAt := today
    content := none }


/-! ## API client (`lib/api-client.ts`) -/

/-- JavaScript truthiness of a JSON value (`NaN` cannot arise from
`JSON.parse`).  A number is falsy exactly when its mantissa has no nonzero
digit. -/
def jsTruthy : Json → Bool
  | .null => false
  | .bool b => b
  | .str s => !s.isEmpty
  | .num lex =>
    (lex.takeWhile (fun c => !(c = 'e' || c = 'E'))).any
      (fun c => 49 ≤ c.toNat && c.toNat ≤ 57)
  | .arr _ => true
  | .obj _ => true

/-- Property access `v?.k` on a parsed JSON value: objects yield their
last binding for the key (as `JSON.parse` does for duplicates), everything
else yields `undefined`. -/
def propOf : Json → List Char → Option Json
  | .obj fs, k => (fs.reverse.find? (fun p => p.1 == k)).map (·.2)
  | _, _ => none

/-- JS `x || next` for an optional value `x` (`undefined` and falsy values
fall through). -/
def orJs (x : Option Json) (next : Json) : Json :=
  match x with
  | some v => if jsTruthy v then v else next
  | none => next

/-- The fallback message text: HTTP status and status text. -/
def httpFallback (status : Nat) (statusText : List Char) : List Char :=
  "HTTP ".toList ++ (toString status).toList ++ ": ".toList ++ statusText

/-- The message value `apiRequest` selects when the error body parsed as
JSON: `errorData?.detail || errorData?.message || fallback`. -/
def apiErrMessage (v : Json) (status : Nat) (statusText : List Char) : Json :=
  orJs (propOf v "detail".toList)
    (orJs (propOf v "message".toList) (Json.str (httpFallback status statusText)))

/-- An HTTP response as `apiRequest` observes it. -/
structure ResponseModel where
  ok : Bool
  status : Nat
  statusText : List Char
  bodyText : List Char

/-- The `ApiError` fields relevant to the claims.  The message is kept as
the selected JS value (the `Error` constructor stringifies it only for
display). -/
structure ApiErrorModel where
  message : Json
  status : Option Nat

/-- How a non-OK `apiRequest` call rejects: with the constructed
`ApiError`, or with the `TypeError` that escapes the catch block when the
body is not JSON — `response.json()` consumed the body stream before
failing, so the catch's `response.text()` rejects with a `TypeError`
that propagates instead of the fallback `ApiError`. -/
inductive RequestFailure where
  | apiError (e : ApiErrorModel) : RequestFailure
  | typeError : RequestFailure

/-- The source function `apiRequest` after the fetch resolved: on a
non-OK status, throw `ApiError` when the body parses as JSON, and let the
double-body-read `TypeError` propagate when it does not; on an OK status,
resolve with the parsed JSON body or `{}` (that catch returns without
re-reading the body). -/
def apiRequest (resp : ResponseModel) : Except RequestFailure Json :=
  if resp.ok then
    match jsonParse resp.bodyText with
    | some v => .ok v
    | none => .ok (Json.obj [])
  else
    match jsonParse resp.bodyText with
    | some v =>
      .error (.apiError { message := apiErrMessage v resp.status resp.statusText
                          status := some resp.status })
    | none => .error .typeError

/-- Outcome of one `fetch` call: a resolved response (any status) or a
rejection with an error message. -/
structure FetchResp where
  ok : Bool
  status : Nat

/-- The message of the `ApiError` thrown when every attempt rejected. -/
def retryFailMsg (attempts : Nat) (lastMsg : Option (List Char)) : List Char :=
  "Network request failed after ".toList ++ (toString attempts).toList ++
  " attempts: ".toList ++ (match lastMsg with
    | some m => m
    | none => "undefined".toList)

/-- The attempt loop of `fetchWithRetry`: `f i` is what the `i`-th `fetch`
does; `remaining` attempts are left; `last` is `lastError` so far.
Returns the first resolved response (if any), the number of attempts
performed, and the final `lastError`. -/
def fetchLoop (f : Nat → Except (List Char) FetchResp) :
    Nat → Nat → Option (List Char) → Option FetchResp × Nat × Option (List Char)
  | _, 0, last => (none, 0, last)
  | i, r + 1, last =>
    match f i with
    | .ok resp => (some resp, 1, last)
    | .error e =>
      ((fetchLoop f (i + 1) r (some e)).1,
       (fetchLoop f (i + 1) r (some e)).2.1 + 1,
       (fetchLoop f (i + 1) r (some e)).2.2)

/-- Whether a fetch attempt rejected. -/
def isErrB : Except (List Char) FetchResp → Bool
  | .error _ => true
  | .ok _ => false

/-- The rejection message of a fetch attempt, if it rejected. -/
def errMsgOf : Except (List Char) FetchResp → Option (List Char)
  | .error e => some e
  | .ok _ => none

/-- The source function `fetchWithRetry(url, opts)` with `retry` retries: the result together with the number of
fetch attempts performed. -/
def fetchWithRetry (f : Nat → Except (List Char) FetchResp) (retry : Nat) :
    Except ApiErrorModel FetchResp × Nat :=
  match fetchLoop f 0 (retry + 1) none with
  | (some resp, n, _) => (.ok resp, n)
  | (none, n, last) =>
    (.error { message := Json.str (retryFailMsg (retry + 1) last), status := none }, n)

/-! ## Job lifecycle -/

inductive JobStatus where
  | pending | running | paused | stopped | completed | failed
deriving DecidableEq, Fintype

inductive Trigger where
  | start | pause | stop | edit | runnerComplete | runnerError
deriving DecidableEq, Fintype

/-- Error `InvalidState`: names the current status and the attempted action. -/
structure TransError where
  fromStatus : JobStatus
  action : Trigger
deriving DecidableEq, Fintype

/-- Modelled from the spec: the backend Job Controller (the `services/`
layer is absent from the source; only its HTTP callers are present).
Transition function of the table in spec section 4.4. -/
def applyTrigger : JobStatus → Trigger → Except TransError JobStatus
  | .pending, .start => .ok .running
  | .running, .pause => .ok .paused
  | .paused, .start => .ok .running
  | .running, .stop => .ok .stopped
  | .paused, .stop => .ok .stopped
  | .running, .runnerComplete => .ok .completed
  | .running, .runnerError => .ok .failed
  | .pending, .edit => .ok .pending
  | s, t => .error ⟨s, t⟩

/-- The edge table of spec section 4.4, transcribed row by row. -/
def specEdges : List (JobStatus × Trigger × JobStatus) :=
  [(.pending, .start, .running),
   (.running, .pause, .paused),
   (.paused, .start, .running),
   (.running, .stop, .stopped),
   (.paused, .stop, .stopped),
   (.running, .runnerComplete, .completed),
   (.running, .runnerError, .failed),
   (.pending, .edit, .pending)]

/-- A fine-tuning job as the UI sees it (`types/common.ts`). -/
structure JobRec where
  id : List Char
  name : List Char
  model : List Char
  dataset : List Char
  status : JobStatus
  progress : Nat
  createdAt : List Char
  duration : List Char

/-- Modelled from the spec: applying a trigger to a job — on a legal edge
the status is updated, otherwise the job is untouched and `InvalidState`
is reported. -/
def stepJob (j : JobRec) (t : Trigger) : JobRec × Option TransError :=
  match applyTrigger j.status t with
  | .ok s2 => ({ j with status := s2 }, none)
  | .error e => (j, some e)

/-- The new status on a legal edge, `none` otherwise. -/
def triggerResult (s : JobStatus) (t : Trigger) : Option JobStatus :=
  (applyTrigger s t).toOption

/-- The `InvalidState` report on an illegal edge, `none` otherwise. -/
def triggerError (s : JobStatus) (t : Trigger) : Option TransError :=
  match applyTrigger s t with
  | .error e => some e
  | .ok _ => none

/-! ## Jobs-list page (`unnamed/part_000`) -/

inductive MenuAction where
  | view | start | edit | pause | stop | downloadModel | viewLogs | retry | delete
deriving DecidableEq, Fintype

/-- The dropdown of the jobs list: which menu items render for a job of
the given status. -/
def menuItems (s : JobStatus) : List MenuAction :=
  [.view] ++
  (if s = .pending || s = .paused then [.start] else []) ++
  (if s = .pending then [.edit] else []) ++
  (if s = .running then [.pause] else []) ++
  (if s = .running || s = .paused then [.stop] else []) ++
  (if s = .completed then [.downloadModel] else []) ++
  (if s = .running || s = .completed || s = .failed then [.viewLogs] else []) ++
  (if s = .failed then [.retry] else []) ++
  [.delete]

/-- An HTTP request issued by a UI handler. -/
structure HttpReq where
  method : List Char
  path : List Char
  bodyFields : List (List Char × Json)

/-- The requests `handleRetry` issues once confirmed: a single POST of
`{name: name + " (Retry)", model, dataset}` to the creation endpoint. -/
def handleRetryRequests (j : JobRec) : List HttpReq :=
  [{ method := "POST".toList
     path := "/jobs".toList
     bodyFields := [("name".toList, .str (j.name ++ " (Retry)".toList)),
                    ("model".toList, .str j.model),
                    ("dataset".toList, .str j.dataset)] }]

/-- The save-name `handleDownload` (jobs list) gives the fetched last
checkpoint. -/
def handleDownloadFilename (jobId : List Char) (step : Nat) : List Char :=
  jobId ++ "-checkpoint-".toList ++ (toString step).toList ++ ".json".toList

/-- The fallback `jobInfo?.name || jobId`. -/
def nameOrId (jobName : Option (List Char)) (jobId : List Char) : List Char :=
  match jobName with
  | some n => if n.isEmpty then jobId else n
  | none => jobId

/-- The save-name `handleDownloadCheckpoint` (job detail page) gives a
checkpoint. -/
def detailDownloadFilename (jobName : Option (List Char)) (jobId : List Char)
    (step : Nat) : List Char :=
  nameOrId jobName jobId ++ "-checkpoint-".toList ++ (toString step).toList ++
  ".json".toList

/-- The filename the spec's section 6 prescribes for checkpoint
downloads (refinement target, from the spec's words). -/
def specCheckpointFilename (jobId : List Char) (step : Nat) : List Char :=
  jobId ++ "-checkpoint-".toList ++ (toString step).toList

/-! ## Polling (`app/layout.tsx` job detail effect, `hooks/useApi.ts`) -/

inductive FetchKind where
  | info | metrics | logs | checkpoints
deriving DecidableEq

/-- The interval period the job detail page passes to `setInterval`. -/
def jobDetailPollIntervalMs : Nat := 3000

/-- What one interval tick of the job detail page fetches: metrics and
logs while the job is training, nothing otherwise. -/
def jobDetailTickFetches (isTraining : Bool) : List FetchKind :=
  if isTraining then [.metrics, .logs] else []

/-- The default `interval` parameter of `useApiPolling`. -/
def useApiPollingDefaultIntervalMs : Nat := 3000

/-- The `useApiPolling` effect body: when enabled it performs one
immediate `execute` and installs an interval with the given period; when
disabled it clears any interval and performs no request.  Returns
(immediate executes, installed interval period). -/
def useApiPollingEffect (enabled : Bool) (intervalMs : Nat) : Nat × Option Nat :=
  if enabled then (1, some intervalMs) else (0, none)


/-! ## Claim theorems -/

/-- C1: for every job and every trigger, the status changes only along the
edges of the spec section 4.4 table; a trigger with no matching edge fails
with `InvalidState` naming the current status and the action, and leaves
the job's status unchanged. -/
theorem applyTrigger_follows_specEdges :
    (∀ s t, (∀ s2, triggerResult s t = some s2 → (s, t, s2) ∈ specEdges) ∧
      (∀ e, triggerError s t = some e →
        (∀ s2, (s, t, s2) ∉ specEdges) ∧ e = ⟨s, t⟩) ∧
      (triggerResult s t = none ↔ triggerError s t = some ⟨s, t⟩)) ∧
    (∀ (j : JobRec) (t : Trigger) (e : TransError),
      (stepJob j t).2 = some e → (stepJob j t).1 = j ∧ e = ⟨j.status, t⟩) := by
  have herr : ∀ s t e, triggerError s t = some e → e = ⟨s, t⟩ := by decide
  constructor
  · decide
  · intro j t e h
    unfold stepJob at h ⊢
    cases happ : applyTrigger j.status t with
    | ok s2 => simp [happ] at h
    | error e2 =>
      simp only [happ, Option.some.injEq] at h
      exact ⟨rfl, h ▸ herr j.status t e2 (by simp [triggerError, happ])⟩

/-- C1 witness: pausing a pending job is rejected with `InvalidState` and
the job is unchanged. -/
theorem applyTrigger_follows_specEdges_witness :
    (stepJob ⟨"j1".toList, "n".toList, "m".toList, "d".toList, .pending, 0,
      "c".toList, "t".toList⟩ .pause).1 =
      ⟨"j1".toList, "n".toList, "m".toList, "d".toList, .pending, 0,
        "c".toList, "t".toList⟩ :=
  (applyTrigger_follows_specEdges.2
    ⟨"j1".toList, "n".toList, "m".toList, "d".toList, .pending, 0,
      "c".toList, "t".toList⟩ .pause ⟨.pending, .pause⟩ rfl).1

/-- C6: each jobs-list menu item is offered exactly for the statuses from
which the corresponding section 4.4 transition is legal; View and Delete
always. -/
theorem menuItems_match_status : ∀ s,
    (.view ∈ menuItems s) ∧ (.delete ∈ menuItems s) ∧
    ((.start ∈ menuItems s) ↔ (s = .pending ∨ s = .paused)) ∧
    ((.edit ∈ menuItems s) ↔ s = .pending) ∧
    ((.pause ∈ menuItems s) ↔ s = .running) ∧
    ((.stop ∈ menuItems s) ↔ (s = .running ∨ s = .paused)) ∧
    ((.downloadModel ∈ menuItems s) ↔ s = .completed) ∧
    ((.retry ∈ menuItems s) ↔ s = .failed) := by
  decide

/-- C3: Retry issues exactly one request — a POST to the creation endpoint
whose body holds only the suffixed name, the model and the dataset — and
the Retry menu item is offered exactly for failed jobs. -/
theorem handleRetry_clones_new_job : ∀ (j : JobRec),
    handleRetryRequests j =
      [{ method := "POST".toList
         path := "/jobs".toList
         bodyFields := [("name".toList, .str (j.name ++ " (Retry)".toList)),
                        ("model".toList, .str j.model),
                        ("dataset".toList, .str j.dataset)] }] ∧
    ((handleRetryRequests j).map HttpReq.path = ["/jobs".toList]) ∧
    ((handleRetryRequests j).map (fun r => r.bodyFields.map Prod.fst) =
      [["name".toList, "model".toList, "dataset".toList]]) ∧
    (∀ s, .retry ∈ menuItems s ↔ s = .failed) :=
  fun _ => ⟨rfl, rfl, rfl, by decide⟩

/-- C4 counterexample: both download paths append `.json` (and the detail
page uses the job name), so neither filename equals the spec's
`{jobId}-checkpoint-{step}`. -/
theorem checkpointFilename_counterexample :
    handleDownloadFilename "j1".toList 5 ≠ specCheckpointFilename "j1".toList 5 ∧
    detailDownloadFilename (some "My Job".toList) "j1".toList 5 ≠
      specCheckpointFilename "j1".toList 5 := by
  exact ⟨by decide, by decide⟩

/-- C4 amended: the jobs-list path saves as `{jobId}-checkpoint-{step}.json`,
and the detail page saves as `{name-or-id}-checkpoint-{step}.json` where the
name falls back to the id when absent or empty. -/
theorem checkpointFilename_amended :
    ∀ (jobId : List Char) (step : Nat) (jobName : Option (List Char)),
    handleDownloadFilename jobId step =
      specCheckpointFilename jobId step ++ ".json".toList ∧
    detailDownloadFilename jobName jobId step =
      specCheckpointFilename (nameOrId jobName jobId) step ++ ".json".toList := by
  intro jobId step jobName
  constructor <;>
    simp [handleDownloadFilename, detailDownloadFilename, specCheckpointFilename]

/-- C8: the job detail page polls on a 3000 ms interval (within the spec's
2–3 s window), each tick fetching metrics and logs exactly while the job is
running; `useApiPolling` defaults to 3000 ms, executes once immediately when
enabled, and issues nothing when disabled. -/
theorem polling_cadence :
    jobDetailPollIntervalMs = 3000 ∧
    2000 ≤ jobDetailPollIntervalMs ∧ jobDetailPollIntervalMs ≤ 3000 ∧
    jobDetailTickFetches true = [.metrics, .logs] ∧
    jobDetailTickFetches false = [] ∧
    useApiPollingDefaultIntervalMs = 3000 ∧
    (∀ i, useApiPollingEffect true i = (1, some i)) ∧
    (∀ i, useApiPollingEffect false i = (0, none)) :=
  ⟨rfl, by decide, by decide, rfl, rfl, rfl, fun _ => rfl, fun _ => rfl⟩


/-! ## C9 machinery: the fetchWithRetry attempt loop -/

theorem fetchLoop_attempts_le (f : Nat → Except (List Char) FetchResp) :
    ∀ (r i : Nat) (last : Option (List Char)), (fetchLoop f i r last).2.1 ≤ r := by
  intro r
  induction r with
  | zero => intro i last; simp [fetchLoop]
  | succ r ih =>
    intro i last
    simp only [fetchLoop]
    cases f i with
    | ok resp => simp
    | error e => simpa using ih (i + 1) (some e)

theorem fetchLoop_first_ok (f : Nat → Except (List Char) FetchResp) :
    ∀ (j r i : Nat) (last : Option (List Char)) (resp : FetchResp), j < r →
      f (i + j) = .ok resp → (∀ k, k < j → isErrB (f (i + k)) = true) →
      ∃ l, fetchLoop f i r last = (some resp, j + 1, l) := by
  intro j
  induction j with
  | zero =>
    intro r i last resp hr hok _
    cases r with
    | zero => omega
    | succ r =>
      refine ⟨last, ?_⟩
      simp only [fetchLoop]
      rw [show i + 0 = i from rfl] at hok
      rw [hok]
  | succ j ih =>
    intro r i last resp hr hok hpre
    cases r with
    | zero => omega
    | succ r =>
      have h0 : isErrB (f i) = true := by
        have := hpre 0 (Nat.succ_pos j)
        simpa using this
      cases hfi : f i with
      | ok _ => rw [hfi] at h0; simp [isErrB] at h0
      | error e =>
        have hok2 : f (i + 1 + j) = .ok resp := by
          rw [show i + 1 + j = i + (j + 1) by omega]; exact hok
        have hpre2 : ∀ k, k < j → isErrB (f (i + 1 + k)) = true := by
          intro k hk
          rw [show i + 1 + k = i + (k + 1) by omega]
          exact hpre (k + 1) (by omega)
        obtain ⟨l, hl⟩ := ih r (i + 1) (some e) resp (by omega) hok2 hpre2
        refine ⟨l, ?_⟩
        simp only [fetchLoop, hfi, hl]

theorem fetchLoop_all_err (f : Nat → Except (List Char) FetchResp) :
    ∀ (r i : Nat) (last : Option (List Char)),
      (∀ k, k < r → isErrB (f (i + k)) = true) →
      fetchLoop f i r last =
        (none, r, if r = 0 then last else errMsgOf (f (i + r - 1))) := by
  intro r
  induction r with
  | zero => intro i last _; simp [fetchLoop]
  | succ r ih =>
    intro i last hall
    have h0 : isErrB (f i) = true := by simpa using hall 0 (Nat.succ_pos r)
    cases hfi : f i with
    | ok _ => rw [hfi] at h0; simp [isErrB] at h0
    | error e =>
      have hall2 : ∀ k, k < r → isErrB (f (i + 1 + k)) = true := by
        intro k hk
        rw [show i + 1 + k = i + (k + 1) by omega]
        exact hall (k + 1) (by omega)
      have hrec := ih (i + 1) (some e) hall2
      simp only [fetchLoop, hfi, hrec]
      cases r with
      | zero =>
        simp only [if_pos rfl, if_neg (Nat.succ_ne_zero 0)]
        have : i + 1 - 1 = i := by omega
        rw [this, hfi]
        simp [errMsgOf]
      | succ r =>
        simp only [if_neg (Nat.succ_ne_zero r), if_neg (Nat.succ_ne_zero (r + 1))]
        have : i + 1 + (r + 1) - 1 = i + (r + 1 + 1) - 1 := by omega
        rw [this]

theorem fetchLoop_none_all_err (f : Nat → Except (List Char) FetchResp) :
    ∀ (r i : Nat) (last : Option (List Char)),
      (fetchLoop f i r last).1 = none →
      ∀ k, k < r → isErrB (f (i + k)) = true := by
  intro r
  induction r with
  | zero => intro i last _ k hk; omega
  | succ r ih =>
    intro i last hnone k hk
    cases hfi : f i with
    | ok resp => simp [fetchLoop, hfi] at hnone
    | error e =>
      simp only [fetchLoop, hfi] at hnone
      cases k with
      | zero => simp [isErrB, hfi]
      | succ k =>
        have := ih (i + 1) (some e) hnone k (by omega)
        rw [show i + 1 + k = i + (k + 1) by omega] at this
        exact this


/-- C9: `fetchWithRetry` with `retry = r` performs at most `r + 1` fetch
attempts; the first attempt whose fetch resolves is returned immediately
(whatever its HTTP status — the response's `ok` flag is unconstrained);
and it throws the `ApiError` naming `r + 1` attempts and the last
underlying error message exactly when every attempt rejects. -/
theorem fetchWithRetry_contract (f : Nat → Except (List Char) FetchResp) (retry : Nat) :
    ((fetchWithRetry f retry).2 ≤ retry + 1) ∧
    (∀ j resp, j ≤ retry → f j = .ok resp →
      (∀ k, k < j → isErrB (f k) = true) →
      fetchWithRetry f retry = (.ok resp, j + 1)) ∧
    ((∀ k, k ≤ retry → isErrB (f k) = true) →
      fetchWithRetry f retry =
        (.error { message := .str (retryFailMsg (retry + 1) (errMsgOf (f retry)))
                  status := none }, retry + 1)) ∧
    (∀ e, (fetchWithRetry f retry).1 = .error e →
      ∀ k, k ≤ retry → isErrB (f k) = true) := by
  refine ⟨?_, ?_, ?_, ?_⟩
  · unfold fetchWithRetry
    have h := fetchLoop_attempts_le f (retry + 1) 0 none
    rcases hl : fetchLoop f 0 (retry + 1) none with ⟨res, n, l⟩
    rw [hl] at h
    cases res <;> simpa using h
  · intro j resp hj hok hpre
    obtain ⟨l, hl⟩ := fetchLoop_first_ok f j (retry + 1) 0 none resp (by omega)
      (by simpa using hok) (by simpa using hpre)
    unfold fetchWithRetry
    rw [hl]
  · intro hall
    have hl := fetchLoop_all_err f (retry + 1) 0 none
      (by intro k hk; simpa using hall k (by omega))
    unfold fetchWithRetry
    rw [hl]
    simp only [if_neg (Nat.succ_ne_zero retry)]
    have : 0 + (retry + 1) - 1 = retry := by omega
    rw [this]
  · intro e herr k hk
    unfold fetchWithRetry at herr
    rcases hl : fetchLoop f 0 (retry + 1) none with ⟨res, n, l⟩
    rw [hl] at herr
    cases res with
    | some resp => simp at herr
    | none =>
      have := fetchLoop_none_all_err f (retry + 1) 0 none (by rw [hl]) k (by omega)
      simpa using this

/-- C9 witness: with `retry = 1` and a fetch that resolves at once with a
non-OK status-500 response, `fetchWithRetry` returns that response after a
single attempt. -/
theorem fetchWithRetry_contract_witness :
    fetchWithRetry (fun _ => .ok ⟨false, 500⟩) 1 = (.ok ⟨false, 500⟩, 1) :=
  (fetchWithRetry_contract (fun _ => .ok ⟨false, 500⟩) 1).2.1 0 ⟨false, 500⟩
    (by omega) rfl (fun k hk => absurd hk (Nat.not_lt_zero k))


/-- C7 counterexample: a non-OK response whose JSON body has a `detail`
field that is present but empty — the thrown message is the `message`
field, not the present `detail` field. -/
theorem apiRequest_detail_counterexample :
    jsonParse "\x7b\"detail\":\"\",\"message\":\"boom\"\x7d".toList =
      some (Json.obj [("detail".toList, .str []),
                      ("message".toList, .str "boom".toList)]) ∧
    propOf (Json.obj [("detail".toList, .str []),
                      ("message".toList, .str "boom".toList)]) "detail".toList =
      some (.str []) ∧
    apiRequest ⟨false, 500, "x".toList,
        "\x7b\"detail\":\"\",\"message\":\"boom\"\x7d".toList⟩ =
      .error (.apiError ⟨.str "boom".toList, some 500⟩) ∧
    Json.str "boom".toList ≠ Json.str [] :=
  ⟨rfl, rfl, rfl, by simp⟩

/-- C7 amended: on a non-OK response whose body parses as JSON, an
`ApiError` carrying the response status is thrown, whose message is the
body's `detail` field when present and truthy, otherwise its `message`
field when present and truthy, otherwise `HTTP {status}: {statusText}`;
on a non-OK response whose body is not JSON, the failed `response.json()`
has already consumed the body stream, so the catch's `response.text()`
rejects and a `TypeError` propagates instead of an `ApiError`; OK
responses resolve with the parsed JSON body, or `{}` when the body is not
JSON. -/
theorem apiRequest_error_contract (resp : ResponseModel) :
    (resp.ok = true →
      (∀ v, jsonParse resp.bodyText = some v → apiRequest resp = .ok v) ∧
      (jsonParse resp.bodyText = none → apiRequest resp = .ok (Json.obj []))) ∧
    (resp.ok = false →
      (∀ v, jsonParse resp.bodyText = some v →
        apiRequest resp =
          .error (.apiError { message := apiErrMessage v resp.status resp.statusText
                              status := some resp.status }) ∧
        (∀ dv, propOf v "detail".toList = some dv → jsTruthy dv = true →
          apiErrMessage v resp.status resp.statusText = dv) ∧
        ((propOf v "detail".toList).all (fun dv => !jsTruthy dv) = true →
          (∀ mv, propOf v "message".toList = some mv → jsTruthy mv = true →
            apiErrMessage v resp.status resp.statusText = mv) ∧
          ((propOf v "message".toList).all (fun mv => !jsTruthy mv) = true →
            apiErrMessage v resp.status resp.statusText =
              .str (httpFallback resp.status resp.statusText)))) ∧
      (jsonParse resp.bodyText = none → apiRequest resp = .error .typeError)) := by
  constructor
  · intro hok
    constructor
    · intro v hv
      unfold apiRequest
      rw [if_pos hok, hv]
    · intro hv
      unfold apiRequest
      rw [if_pos hok, hv]
  · intro hok
    constructor
    · intro v hv
      refine ⟨?_, ?_, ?_⟩
      · unfold apiRequest
        rw [if_neg (by simp [hok]), hv]
      · intro dv hdv htr
        unfold apiErrMessage
        simp only [orJs, hdv, htr, if_true]
      · intro hall
        constructor
        · intro mv hmv htr
          unfold apiErrMessage
          cases hdv : propOf v "detail".toList with
          | none => simp only [orJs, hdv, hmv, htr, if_true]
          | some dv =>
            rw [hdv] at hall
            simp only [Option.all_some, Bool.not_eq_true'] at hall
            simp only [orJs, hdv, hall, hmv, htr, if_true, if_false,
              Bool.false_eq_true]
        · intro hallm
          unfold apiErrMessage
          cases hdv : propOf v "detail".toList with
          | none =>
            cases hmv : propOf v "message".toList with
            | none => simp only [orJs, hdv, hmv]
            | some mv =>
              rw [hmv] at hallm
              simp only [Option.all_some, Bool.not_eq_true'] at hallm
              simp only [orJs, hdv, hmv, hallm, if_false, Bool.false_eq_true]
          | some dv =>
            rw [hdv] at hall
            simp only [Option.all_some, Bool.not_eq_true'] at hall
            cases hmv : propOf v "message".toList with
            | none => simp only [orJs, hdv, hmv, hall, if_false, Bool.false_eq_true]
            | some mv =>
              rw [hmv] at hallm
              simp only [Option.all_some, Bool.not_eq_true'] at hallm
              simp only [orJs, hdv, hmv, hall, hallm, if_false, Bool.false_eq_true]
    · intro hv
      unfold apiRequest
      rw [if_neg (by simp [hok]), hv]

/-- C7 witness: a 404 whose JSON body carries `detail: "nf"` throws an
`ApiError` with message `"nf"` and status 404. -/
theorem apiRequest_error_contract_witness :
    apiRequest ⟨false, 404, "Not Found".toList, "\x7b\"detail\":\"nf\"\x7d".toList⟩ =
      .error (.apiError ⟨.str "nf".toList, some 404⟩) :=
  ((((apiRequest_error_contract
      ⟨false, 404, "Not Found".toList, "\x7b\"detail\":\"nf\"\x7d".toList⟩).2 rfl).1
    (Json.obj [("detail".toList, .str "nf".toList)]) rfl).1).trans (by rfl)

/-! ## Line-count machinery for the dataset claims -/

theorem joinC_concat (sep : Char) (L : List (List Char)) (l : List Char)
    (hne : L ≠ []) : joinC sep (L ++ [l]) = joinC sep L ++ sep :: l := by
  induction L with
  | nil => exact absurd rfl hne
  | cons m ms ih =>
    cases ms with
    | nil => simp [joinC]
    | cons m2 ms2 =>
      have h1 : joinC sep ((m :: m2 :: ms2) ++ [l]) =
          m ++ sep :: joinC sep ((m2 :: ms2) ++ [l]) := rfl
      rw [h1, ih (by simp)]
      show m ++ sep :: (joinC sep (m2 :: ms2) ++ sep :: l) =
        (m ++ sep :: joinC sep (m2 :: ms2)) ++ sep :: l
      simp

theorem joinC_cons_decomp (sep : Char) (h : List Char) (ls : List (List Char))
    (hfree : ∀ l ∈ ls, sep ∉ l) :
    ∃ rest, joinC sep (h :: ls) = h ++ rest ∧ rest.count sep = ls.length := by
  cases ls with
  | nil => exact ⟨[], by simp [joinC], by simp⟩
  | cons m ms =>
    refine ⟨sep :: joinC sep (m :: ms), rfl, ?_⟩
    rw [List.count_cons]
    rw [count_joinC sep (m :: ms) hfree]
    simp

theorem count_jsTrim_le (c : Char) (l : List Char) :
    (jsTrim l).count c ≤ l.count c := by
  unfold jsTrim trimRight trimLeft
  rw [List.count_reverse]
  refine le_trans (count_dropWhile_le _ c _) ?_
  rw [List.count_reverse]
  exact count_dropWhile_le _ c _

theorem jsTrim_eq_nil_iff (l : List Char) :
    jsTrim l = [] ↔ ∀ c ∈ l, isJsTrimWs c = true := by
  unfold jsTrim trimRight trimLeft
  constructor
  · intro h c hc
    rw [List.reverse_eq_nil_iff, List.dropWhile_eq_nil_iff] at h
    rcases List.mem_append.mp
      ((List.takeWhile_append_dropWhile (p := isJsTrimWs) (l := l)) ▸ hc) with h1 | h2
    · exact List.mem_takeWhile_imp h1
    · exact h c (by simpa using h2)
  · intro h
    have h1 : l.dropWhile isJsTrimWs = [] :=
      List.dropWhile_eq_nil_iff.mpr (fun c hc => h c hc)
    rw [h1]
    rfl

/-- The count of non-blank lines of the trimmed content — the spec-side
reading of the `jsonl` branch ("non-blank" = containing a non-whitespace
character). -/
def nonBlankLineCount (content : List Char) : Nat :=
  ((splitOnC '\n' (jsTrim content)).filter
    (fun l => l.any (fun c => !isJsTrimWs c))).length

theorem filter_nonblank_agree (L : List (List Char)) :
    L.filter (fun l => !(jsTrim l).isEmpty) =
      L.filter (fun l => l.any (fun c => !isJsTrimWs c)) := by
  apply List.filter_congr
  intro l _
  apply Bool.eq_iff_iff.mpr
  simp only [Bool.not_eq_true', List.isEmpty_eq_false_iff_exists_mem,
    List.any_eq_true, Bool.not_eq_true]
  constructor
  · intro ⟨x, hx⟩
    by_contra hno
    push_neg at hno
    have : jsTrim l = [] := (jsTrim_eq_nil_iff l).mpr (by
      intro c hc
      by_contra hcc
      exact absurd (hno c hc) (by simpa using hcc))
    rw [this] at hx
    cases hx
  · intro ⟨c, hc, hcw⟩
    by_contra hno
    push_neg at hno
    have hnil : jsTrim l = [] := List.eq_nil_iff_forall_not_mem.mpr hno
    have := (jsTrim_eq_nil_iff l).mp hnil c hc
    rw [this] at hcw
    cases hcw


/-- Newline count of the trimmed join of a header line and data lines:
one per data line, provided no line embeds a newline and the first and
last lines contain a non-whitespace character (so trimming cannot swallow
a line boundary). -/
theorem count_jsTrim_join (header : List Char) (dataLines : List (List Char))
    (hheader : '\n' ∉ header)
    (hlines : ∀ l ∈ dataLines, '\n' ∉ l)
    (hhead : dataLines ≠ [] → ∃ c ∈ header, isJsTrimWs c = false)
    (hlast : ∀ l, dataLines.getLast? = some l → ∃ c ∈ l, isJsTrimWs c = false) :
    (jsTrim (joinC '\n' (header :: dataLines))).count '\n' = dataLines.length := by
  rcases List.eq_nil_or_concat dataLines with rfl | ⟨ds, llast, rfl⟩
  · have h0 : header.count '\n' = 0 := List.count_eq_zero.mpr hheader
    have hle := count_jsTrim_le '\n' header
    simp only [joinC, List.length_nil]
    omega
  · rw [show header :: ds.concat llast = (header :: ds) ++ [llast] by simp]
    rw [joinC_concat '\n' (header :: ds) llast (by simp)]
    obtain ⟨rest, hArest, hcountrest⟩ :=
      joinC_cons_decomp '\n' header ds (fun l hl => hlines l (by simp [hl]))
    obtain ⟨cw, hcwmem, hcw⟩ := hhead (by simp)
    have hwA : ∃ x ∈ joinC '\n' (header :: ds), isJsTrimWs x = false :=
      ⟨cw, by rw [hArest]; exact List.mem_append_left _ hcwmem, hcw⟩
    obtain ⟨cl, hclmem, hcl⟩ := hlast llast (by simp [List.getLast?_concat])
    have hllast0 : llast.count '\n' = 0 :=
      List.count_eq_zero.mpr (hlines llast (by simp))
    have hheader0 : header.count '\n' = 0 := List.count_eq_zero.mpr hheader
    unfold jsTrim trimLeft trimRight
    rw [dropWhile_append_of_exists _ _ ('\n' :: llast) hwA]
    have hdwA : (joinC '\n' (header :: ds)).dropWhile isJsTrimWs =
        header.dropWhile isJsTrimWs ++ rest := by
      rw [hArest]
      exact dropWhile_append_of_exists _ header rest ⟨cw, hcwmem, hcw⟩
    rw [show ((joinC '\n' (header :: ds)).dropWhile isJsTrimWs ++ '\n' :: llast).reverse
        = llast.reverse ++ '\n' ::
          ((joinC '\n' (header :: ds)).dropWhile isJsTrimWs).reverse from by simp]
    rw [dropWhile_append_of_exists _ llast.reverse _
      ⟨cl, by simpa using hclmem, hcl⟩]
    rw [List.count_reverse, List.count_append, List.count_cons]
    have hb1 : (llast.reverse.dropWhile isJsTrimWs).count '\n' = 0 := by
      have := count_dropWhile_le isJsTrimWs '\n' llast.reverse
      rw [List.count_reverse] at this
      omega
    have hb2 : (((joinC '\n' (header :: ds)).dropWhile isJsTrimWs).reverse).count '\n'
        = ds.length := by
      rw [List.count_reverse, hdwA, List.count_append]
      have := count_dropWhile_le isJsTrimWs '\n' header
      omega
    rw [hb1, hb2]
    simp


/-- C5: an uploaded `.csv` file whose content is one header line followed
by `n` data lines (none embedding a newline; header and last data line not
all-whitespace, so trimming keeps every line boundary) parses to exactly
`n`, and the upload branch stores that count in the created dataset's
`samples` field. -/
theorem csv_upload_sample_count (now fileSize : Nat) (today name header : List Char)
    (dataLines : List (List Char))
    (hext : extOf name = "csv".toList)
    (hheader : '\n' ∉ header)
    (hlines : ∀ l ∈ dataLines, '\n' ∉ l)
    (hheadnb : dataLines.isEmpty = false → header.any (fun c => !isJsTrimWs c) = true)
    (hlastnb : dataLines.getLast?.all (fun l => l.any (fun c => !isJsTrimWs c)) = true) :
    parseFileForSampleCount name (joinC '\n' (header :: dataLines)) = dataLines.length ∧
    (handleSaveUpload now today name (joinC '\n' (header :: dataLines)) fileSize).samples
      = dataLines.length := by
  have hcount := count_jsTrim_join header dataLines hheader hlines
    (fun hne => by
      obtain ⟨c, hc, hcw⟩ := List.any_eq_true.mp
        (hheadnb (by simpa [List.isEmpty_iff] using hne))
      exact ⟨c, hc, by simpa using hcw⟩)
    (fun l hl => by
      rw [hl] at hlastnb
      simpa using hlastnb)
  have hmain : parseFileForSampleCount name (joinC '\n' (header :: dataLines))
      = dataLines.length := by
    unfold parseFileForSampleCount
    rw [hext]
    rw [if_neg (by decide), if_neg (by decide), if_pos rfl]
    rw [splitOnC_length, hcount]
    omega
  exact ⟨hmain, by simpa [handleSaveUpload] using hmain⟩

/-- C5 witness: a `.csv` file with the standard header and three data rows
counts 3 samples. -/
theorem csv_upload_sample_count_witness :
    parseFileForSampleCount "d.csv".toList
      (joinC '\n' (csvHeader :: ["a,b,c".toList, "d,e,f".toList, "g,h,i".toList]))
      = 3 :=
  (csv_upload_sample_count 0 0 "2026-10-11".toList "d.csv".toList csvHeader
    ["a,b,c".toList, "d,e,f".toList, "g,h,i".toList] rfl (by decide) (by decide)
    (by decide) (by decide)).1

/-- C10: `parseFileForSampleCount` is a total function of the file name and
content (the embedded promise always resolves); a `.json` file parsing to a
non-array value counts 1; an unparsable `.json` file counts 0; an
unrecognised extension counts 0; and a `.jsonl` file counts exactly the
non-blank lines of its trimmed content. -/
theorem parseFileForSampleCount_cases (name content : List Char) :
    (extOf name = "json".toList →
      (∀ v, jsonParse content = some v → v.isArr = false →
        parseFileForSampleCount name content = 1) ∧
      (jsonParse content = none → parseFileForSampleCount name content = 0)) ∧
    (extOf name ≠ "json".toList → extOf name ≠ "jsonl".toList →
      extOf name ≠ "csv".toList → parseFileForSampleCount name content = 0) ∧
    (extOf name = "jsonl".toList →
      parseFileForSampleCount name content = nonBlankLineCount content) := by
  refine ⟨?_, ?_, ?_⟩
  · intro hext
    constructor
    · intro v hv hva
      unfold parseFileForSampleCount
      rw [hext, if_pos rfl, hv]
      cases v with
      | arr xs => simp [Json.isArr] at hva
      | null => rfl
      | bool b => rfl
      | num l => rfl
      | str s => rfl
      | obj fs => rfl
    · intro hv
      unfold parseFileForSampleCount
      rw [hext, if_pos rfl, hv]
  · intro h1 h2 h3
    unfold parseFileForSampleCount
    rw [if_neg h1, if_neg h2, if_neg h3]
  · intro hext
    unfold parseFileForSampleCount
    rw [hext, if_neg (by decide), if_pos rfl]
    unfold nonBlankLineCount
    rw [filter_nonblank_agree]

/-- C10 witness: `a.json` containing the non-array value `{}` counts 1. -/
theorem parseFileForSampleCount_cases_witness :
    parseFileForSampleCount "a.json".toList "\x7b\x7d".toList = 1 :=
  ((parseFileForSampleCount_cases "a.json".toList "\x7b\x7d".toList).1 rfl).1
    (Json.obj []) rfl rfl


theorem hexVal_hexDigitLc (n : Nat) (h : n < 16) : hexVal (hexDigitLc n) = some n := by
  interval_cases n <;> rfl

set_option maxHeartbeats 2000000 in
theorem parseStringBody_cons_generic (a : Char) (X : List Char)
    (h1 : ¬a = '"') (h2 : ¬a = '\\') (h3 : ¬a.toNat < 32) :
    parseStringBody (a :: X) = (parseStringBody X).map (fun p => (a :: p.1, p.2)) := by
  rw [parseStringBody.eq_def]
  split
  · rename_i heq; cases heq
  · rename_i heq
    injection heq with hh ht
    exact absurd hh h1
  · rename_i heq
    injection heq with hh ht
    exact absurd hh h2
  · rename_i c rest2 hne1 hne2 heq
    injection heq with hh ht
    subst hh; subst ht
    rw [if_neg h3]

theorem parseStringBody_u (h1 h2 h3 h4 : Char) (X : List Char) (x1 x2 x3 x4 : Nat)
    (e1 : hexVal h1 = some x1) (e2 : hexVal h2 = some x2)
    (e3 : hexVal h3 = some x3) (e4 : hexVal h4 = some x4) :
    parseStringBody ('\\' :: 'u' :: h1 :: h2 :: h3 :: h4 :: X) =
      (parseStringBody X).map
        (fun p => (Char.ofNat (4096 * x1 + 256 * x2 + 16 * x3 + x4) :: p.1, p.2)) := by
  have step : parseStringBody ('\\' :: 'u' :: h1 :: h2 :: h3 :: h4 :: X) =
      match hexVal h1, hexVal h2, hexVal h3, hexVal h4 with
      | some y1, some y2, some y3, some y4 =>
        (parseStringBody X).map
          (fun p => (Char.ofNat (4096 * y1 + 256 * y2 + 16 * y3 + y4) :: p.1, p.2))
      | _, _, _, _ => none := rfl
  rw [step, e1, e2, e3, e4]

/-- Round-trip of the string escaping: the string-literal parser undoes
`JSON.stringify`'s escaping, leaving the tail untouched. -/
theorem parseStringBody_escape (s rest : List Char) :
    parseStringBody (escapeStr s ++ '"' :: rest) = some (s, rest) := by
  induction s with
  | nil =>
    show parseStringBody ('"' :: rest) = some ([], rest)
    rfl
  | cons a as ih =>
    have hes : escapeStr (a :: as) ++ '"' :: rest
        = escapeChar a ++ (escapeStr as ++ '"' :: rest) := by
      simp [escapeStr]
    rw [hes]
    by_cases h1 : a = '"'
    · subst h1
      show (parseStringBody (escapeStr as ++ '"' :: rest)).map
        (fun p => ('"' :: p.1, p.2)) = some ('"' :: as, rest)
      rw [ih]
      rfl
    · by_cases h2 : a = '\\'
      · subst h2
        show (parseStringBody (escapeStr as ++ '"' :: rest)).map
          (fun p => ('\\' :: p.1, p.2)) = some ('\\' :: as, rest)
        rw [ih]
        rfl
      · by_cases h3 : a = '\x08'
        · subst h3
          show (parseStringBody (escapeStr as ++ '"' :: rest)).map
            (fun p => ('\x08' :: p.1, p.2)) = some ('\x08' :: as, rest)
          rw [ih]
          rfl
        · by_cases h4 : a = '\x0c'
          · subst h4
            show (parseStringBody (escapeStr as ++ '"' :: rest)).map
              (fun p => ('\x0c' :: p.1, p.2)) = some ('\x0c' :: as, rest)
            rw [ih]
            rfl
          · by_cases h5 : a = '\n'
            · subst h5
              show (parseStringBody (escapeStr as ++ '"' :: rest)).map
                (fun p => ('\n' :: p.1, p.2)) = some ('\n' :: as, rest)
              rw [ih]
              rfl
            · by_cases h6 : a = '\r'
              · subst h6
                show (parseStringBody (escapeStr as ++ '"' :: rest)).map
                  (fun p => ('\r' :: p.1, p.2)) = some ('\r' :: as, rest)
                rw [ih]
                rfl
              · by_cases h7 : a = '\t'
                · subst h7
                  show (parseStringBody (escapeStr as ++ '"' :: rest)).map
                    (fun p => ('\t' :: p.1, p.2)) = some ('\t' :: as, rest)
                  rw [ih]
                  rfl
                · by_cases hlt : a.toNat < 32
                  · have hesc : escapeChar a =
                        ['\\', 'u', '0', '0', hexDigitLc (a.toNat / 16),
                         hexDigitLc (a.toNat % 16)] := by
                      unfold escapeChar
                      rw [if_neg h1, if_neg h2, if_neg h3, if_neg h4, if_neg h5,
                        if_neg h6, if_neg h7, if_pos hlt]
                    rw [hesc]
                    rw [show (['\\', 'u', '0', '0', hexDigitLc (a.toNat / 16),
                         hexDigitLc (a.toNat % 16)] ++ (escapeStr as ++ '"' :: rest))
                      = '\\' :: 'u' :: '0' :: '0' :: hexDigitLc (a.toNat / 16) ::
                        hexDigitLc (a.toNat % 16) :: (escapeStr as ++ '"' :: rest) from rfl]
                    rw [parseStringBody_u '0' '0' (hexDigitLc (a.toNat / 16))
                      (hexDigitLc (a.toNat % 16)) _ 0 0 (a.toNat / 16) (a.toNat % 16)
                      rfl rfl (hexVal_hexDigitLc _ (by omega))
                      (hexVal_hexDigitLc _ (by omega))]
                    rw [ih]
                    have hchar : Char.ofNat (4096 * 0 + 256 * 0 + 16 * (a.toNat / 16)
                        + a.toNat % 16) = a := by
                      rw [show 4096 * 0 + 256 * 0 + 16 * (a.toNat / 16) + a.toNat % 16
                        = a.toNat from by omega]
                      exact Char.ofNat_toNat a
                    rw [hchar]
                    rfl
                  · have hesc : escapeChar a = [a] := by
                      unfold escapeChar
                      rw [if_neg h1, if_neg h2, if_neg h3, if_neg h4, if_neg h5,
                        if_neg h6, if_neg h7, if_neg hlt]
                    rw [hesc]
                    rw [show ([a] ++ (escapeStr as ++ '"' :: rest))
                      = a :: (escapeStr as ++ '"' :: rest) from rfl]
                    rw [parseStringBody_cons_generic a _ h1 h2 hlt, ih]
                    rfl


/-- Right-nested normal form of the text after a pretty row's member list
closes: newline, two-space indent, closing brace. -/
def closeNF (T : List Char) : List Char := '\n' :: ' ' :: ' ' :: '}' :: T

def mem3NF (r : CSVRow) (T : List Char) : List Char :=
  ',' :: '\n' :: ' ' :: ' ' :: ' ' :: ' ' :: '"' ::
    (escapeStr keyOutput ++ '"' :: ':' :: ' ' :: '"' ::
    (escapeStr r.output ++ '"' :: closeNF T))

def mem2NF (r : CSVRow) (T : List Char) : List Char :=
  ',' :: '\n' :: ' ' :: ' ' :: ' ' :: ' ' :: '"' ::
    (escapeStr keyInput ++ '"' :: ':' :: ' ' :: '"' ::
    (escapeStr r.input ++ '"' :: mem3NF r T))

def objNF (r : CSVRow) (T : List Char) : List Char :=
  '\n' :: ' ' :: ' ' :: ' ' :: ' ' :: '"' ::
    (escapeStr keyInstruction ++ '"' :: ':' :: ' ' :: '"' ::
    (escapeStr r.instruction ++ '"' :: mem2NF r T))

def prettyNF (r : CSVRow) (T : List Char) : List Char :=
  ' ' :: ' ' :: '{' :: objNF r T

theorem parse_str_value (h : Nat) (s T : List Char) :
    parseCore (h + 1) .value (' ' :: '"' :: (escapeStr s ++ '"' :: T)) =
      some (.str s, T) := by
  have s1 : parseCore (h + 1) .value (' ' :: '"' :: (escapeStr s ++ '"' :: T)) =
      match parseStringBody (escapeStr s ++ '"' :: T) with
      | some (s2, r) => some (.str s2, r)
      | none => none := rfl
  rw [s1, parseStringBody_escape]

theorem parse_closeNF (h : Nat) (T : List Char) :
    parseCore (h + 1) .objectRest (closeNF T) = some (.obj [], T) := rfl

theorem parse_mem3NF (h : Nat) (r : CSVRow) (T : List Char) :
    parseCore (h + 2) .objectRest (mem3NF r T) =
      some (.obj [(keyOutput, .str r.output)], T) := by
  have s1 : parseCore (h + 2) .objectRest (mem3NF r T) =
      match parseCore (h + 1) .value
          (' ' :: '"' :: (escapeStr r.output ++ '"' :: closeNF T)) with
      | some (v, r3) =>
        (match parseCore (h + 1) .objectRest r3 with
         | some (.obj fs, r4) => some (.obj ((keyOutput, v) :: fs), r4)
         | _ => none)
      | none => none := rfl
  rw [s1]
  simp only [parse_str_value, parse_closeNF]

theorem parse_mem2NF (h : Nat) (r : CSVRow) (T : List Char) :
    parseCore (h + 3) .objectRest (mem2NF r T) =
      some (.obj [(keyInput, .str r.input), (keyOutput, .str r.output)], T) := by
  have s1 : parseCore (h + 3) .objectRest (mem2NF r T) =
      match parseCore (h + 2) .value
          (' ' :: '"' :: (escapeStr r.input ++ '"' :: mem3NF r T)) with
      | some (v, r3) =>
        (match parseCore (h + 2) .objectRest r3 with
         | some (.obj fs, r4) => some (.obj ((keyInput, v) :: fs), r4)
         | _ => none)
      | none => none := rfl
  rw [s1]
  rw [show h + 2 = (h + 1) + 1 from rfl]
  simp only [parse_str_value, parse_mem3NF]

theorem parse_objNF (g : Nat) (r : CSVRow) (T : List Char) :
    parseCore (g + 5) .value ('{' :: objNF r T) = some (rowJson r, T) := by
  have s1 : parseCore (g + 5) .value ('{' :: objNF r T) =
      match parseCore (g + 4) .value
          (' ' :: '"' :: (escapeStr r.instruction ++ '"' :: mem2NF r T)) with
      | some (v, r3) =>
        (match parseCore (g + 4) .objectRest r3 with
         | some (.obj fs, r4) => some (.obj ((keyInstruction, v) :: fs), r4)
         | _ => none)
      | none => none := rfl
  rw [s1]
  rw [show g + 4 = (g + 3) + 1 from rfl]
  simp only [parse_str_value]
  rw [show g + 3 + 1 = (g + 1) + 3 from rfl]
  simp only [parse_mem2NF]
  rfl

theorem parse_elem (g : Nat) (r : CSVRow) (T : List Char) :
    parseCore (g + 5) .value ('\n' :: prettyNF r T) = some (rowJson r, T) := by
  have s1 : parseCore (g + 5) .value ('\n' :: prettyNF r T) =
      parseCore (g + 5) .value ('{' :: objNF r T) := rfl
  rw [s1, parse_objNF]

/-- The text following one pretty array element: either the closing
bracket line, or a comma line and the next element. -/
def elemsNF (T : List Char) : List CSVRow → List Char
  | [] => '\n' :: ']' :: T
  | r :: rs => ',' :: '\n' :: prettyNF r (elemsNF T rs)

theorem parse_elemsNF (rs : List CSVRow) : ∀ (f : Nat) (T : List Char),
    parseCore (f + 7 * rs.length + 1) .arrayRest (elemsNF T rs) =
      some (.arr (rs.map rowJson), T) := by
  induction rs with
  | nil => intro f T; rfl
  | cons r rs ih =>
    intro f T
    have harith : f + 7 * (r :: rs).length + 1 = (f + 7 * rs.length + 7) + 1 := by
      simp [List.length_cons]; omega
    rw [harith]
    have s1 : parseCore ((f + 7 * rs.length + 7) + 1) .arrayRest (elemsNF T (r :: rs)) =
        match parseCore (f + 7 * rs.length + 7) .value
            ('\n' :: prettyNF r (elemsNF T rs)) with
        | some (v, r2) =>
          (match parseCore (f + 7 * rs.length + 7) .arrayRest r2 with
           | some (.arr vs, r3) => some (.arr (v :: vs), r3)
           | _ => none)
        | none => none := rfl
    rw [s1]
    rw [show f + 7 * rs.length + 7 = (f + 7 * rs.length + 2) + 5 from by omega]
    simp only [parse_elem]
    rw [show f + 7 * rs.length + 2 + 5 = (f + 6) + 7 * rs.length + 1 from by omega]
    simp only [ih]
    rfl

theorem parse_arrTop (rows : List CSVRow) (f : Nat) (T : List Char) :
    parseCore (f + 7 * rows.length + 1) .value
      (match rows with
       | [] => '[' :: ']' :: T
       | r :: rs => '[' :: '\n' :: prettyNF r (elemsNF T rs)) =
      some (.arr (rows.map rowJson), T) := by
  cases rows with
  | nil => rfl
  | cons r rs =>
    have harith : f + 7 * (r :: rs).length + 1 = (f + 7 * rs.length + 7) + 1 := by
      simp [List.length_cons]; omega
    rw [harith]
    have s1 : parseCore ((f + 7 * rs.length + 7) + 1) .value
        ('[' :: '\n' :: prettyNF r (elemsNF T rs)) =
        match parseCore (f + 7 * rs.length + 7) .value
            ('\n' :: prettyNF r (elemsNF T rs)) with
        | some (v, r2) =>
          (match parseCore (f + 7 * rs.length + 7) .arrayRest r2 with
           | some (.arr vs, r3) => some (.arr (v :: vs), r3)
           | _ => none)
        | none => none := rfl
    rw [s1]
    rw [show f + 7 * rs.length + 7 = (f + 7 * rs.length + 2) + 5 from by omega]
    simp only [parse_elem]
    rw [show f + 7 * rs.length + 2 + 5 = (f + 6) + 7 * rs.length + 1 from by omega]
    simp only [parse_elemsNF]
    rfl

theorem prettyRow_append (r : CSVRow) (T : List Char) :
    prettyRow r ++ T = prettyNF r T := by
  simp [prettyRow, rowBody, prettyNF, objNF, mem2NF, mem3NF, closeNF, quoteStr]

theorem joinPretty_close (rows : List CSVRow) (r : CSVRow) (T : List Char) :
    joinPretty ((r :: rows).map prettyRow) ++ '\n' :: ']' :: T =
      prettyNF r (elemsNF T rows) := by
  induction rows generalizing r with
  | nil => simpa [joinPretty, elemsNF] using prettyRow_append r ('\n' :: ']' :: T)
  | cons r2 rs ih =>
    have h1 : joinPretty ((r :: r2 :: rs).map prettyRow) =
        prettyRow r ++ ',' :: '\n' :: joinPretty ((r2 :: rs).map prettyRow) := rfl
    rw [h1]
    rw [List.append_assoc]
    rw [show (',' :: '\n' :: joinPretty ((r2 :: rs).map prettyRow)) ++ '\n' :: ']' :: T
      = ',' :: '\n' :: (joinPretty ((r2 :: rs).map prettyRow) ++ '\n' :: ']' :: T)
      from rfl]
    rw [ih r2]
    rw [show (',' :: '\n' :: prettyNF r2 (elemsNF T rs)) = elemsNF T (r2 :: rs) from rfl]
    exact prettyRow_append r (elemsNF T (r2 :: rs))

theorem stringifyRowsPretty_eq (r : CSVRow) (rs : List CSVRow) :
    stringifyRowsPretty (r :: rs) = '[' :: '\n' :: prettyNF r (elemsNF [] rs) := by
  have h1 : stringifyRowsPretty (r :: rs) =
      '[' :: '\n' :: (joinPretty ((r :: rs).map prettyRow) ++ '\n' :: [']']) := rfl
  rw [h1]
  rw [show ('\n' :: ([']'] : List Char)) = '\n' :: ']' :: [] from rfl]
  rw [joinPretty_close rs r []]

theorem length_prettyNF_ge (r : CSVRow) (T : List Char) :
    7 + T.length ≤ (prettyNF r T).length := by
  simp [prettyNF, objNF, mem2NF, mem3NF, closeNF]
  omega

theorem length_elemsNF_ge (T : List Char) (rs : List CSVRow) :
    7 * rs.length + T.length + 2 ≤ (elemsNF T rs).length := by
  induction rs with
  | nil => simp [elemsNF]
  | cons r rs ih =>
    have := length_prettyNF_ge r (elemsNF T rs)
    simp only [elemsNF, List.length_cons, List.length_cons, List.length_cons]
    simp only [List.length_cons] at *
    omega

/-- Round-trip at the top: `JSON.parse` recovers the serialized row array
exactly. -/
theorem jsonParse_stringifyRows (rows : List CSVRow) :
    jsonParse (stringifyRowsPretty rows) = some (.arr (rows.map rowJson)) := by
  cases rows with
  | nil => rfl
  | cons r rs =>
    rw [stringifyRowsPretty_eq r rs]
    unfold jsonParse
    have hlen : 7 * (r :: rs).length + 1 ≤ ('[' :: '\n' :: prettyNF r (elemsNF [] rs)).length := by
      have h1 := length_prettyNF_ge r (elemsNF [] rs)
      have h2 := length_elemsNF_ge [] rs
      simp only [List.length_cons, List.length_nil] at *
      omega
    set L := ('[' :: '\n' :: prettyNF r (elemsNF [] rs)).length with hL
    rw [show L + 1 = (L - 7 * (r :: rs).length) + 7 * (r :: rs).length + 1 from by omega]
    rw [show ('[' :: '\n' :: prettyNF r (elemsNF [] rs))
      = (match (r :: rs : List CSVRow) with
         | [] => '[' :: ']' :: ([] : List Char)
         | r2 :: rs2 => '[' :: '\n' :: prettyNF r2 (elemsNF [] rs2)) from rfl]
    rw [parse_arrTop (r :: rs) (L - 7 * (r :: rs).length) []]
    rfl


theorem hexDigitLc_ne_nl (n : Nat) : hexDigitLc n ≠ '\n' := by
  unfold hexDigitLc
  split <;> decide

theorem escapeChar_no_nl (c : Char) : '\n' ∉ escapeChar c := by
  unfold escapeChar
  split_ifs with h1 h2 h3 h4 h5 h6 h7 h8
  · decide
  · decide
  · decide
  · decide
  · decide
  · decide
  · decide
  · intro hmem
    simp only [List.mem_cons, List.not_mem_nil] at hmem
    rcases hmem with h | h | h | h | h | h | h
    · cases h
    · cases h
    · cases h
    · cases h
    · exact hexDigitLc_ne_nl _ h.symm
    · exact hexDigitLc_ne_nl _ h.symm
    · cases h
  · intro hmem
    simp only [List.mem_cons, List.not_mem_nil, or_false] at hmem
    subst hmem
    exact h5 rfl

theorem escapeStr_no_nl (s : List Char) : '\n' ∉ escapeStr s := by
  intro hmem
  unfold escapeStr at hmem
  rw [List.mem_flatten] at hmem
  obtain ⟨l, hl, hmem2⟩ := hmem
  rw [List.mem_map] at hl
  obtain ⟨c, _, rfl⟩ := hl
  exact escapeChar_no_nl c hmem2

theorem csvEscape_no_nl (s : List Char) (hs : '\n' ∉ s) : '\n' ∉ csvEscape s := by
  intro hmem
  unfold csvEscape at hmem
  rw [List.mem_flatten] at hmem
  obtain ⟨l, hl, hmem2⟩ := hmem
  rw [List.mem_map] at hl
  obtain ⟨c, hc, rfl⟩ := hl
  by_cases h : c = '"'
  · rw [if_pos h] at hmem2
    simp at hmem2
  · rw [if_neg h] at hmem2
    simp only [List.mem_cons, List.not_mem_nil, or_false] at hmem2
    exact hs (hmem2 ▸ hc)

theorem jsTrim_eq_self_of_bounds (l : List Char)
    (h1 : ∀ c, l.head? = some c → isJsTrimWs c = false)
    (h2 : ∀ c, l.getLast? = some c → isJsTrimWs c = false) :
    jsTrim l = l := by
  rcases l with _ | ⟨a, as⟩
  · rfl
  · have ha : isJsTrimWs a = false := h1 a rfl
    have hne : (a :: as) ≠ [] := by simp
    have hlastw : isJsTrimWs ((a :: as).getLast hne) = false :=
      h2 _ (List.getLast?_eq_getLast _ hne)
    unfold jsTrim trimLeft trimRight
    rw [dropWhile_eq_self_of_head _ a as ha]
    conv_lhs => rw [← List.dropLast_append_getLast hne]
    rw [List.reverse_append]
    simp only [List.reverse_cons, List.reverse_nil, List.nil_append,
      List.singleton_append]
    rw [dropWhile_eq_self_of_head _ _ _ hlastw]
    rw [show ((a :: as).getLast hne :: (a :: as).dropLast.reverse).reverse
      = (a :: as).dropLast ++ [(a :: as).getLast hne] from by simp]
    exact List.dropLast_append_getLast hne

theorem stringifyRowC_getLast (r : CSVRow) :
    (stringifyRowC r).getLast? = some '}' := by
  simp [stringifyRowC, quoteStr, List.getLast?_eq_head?_reverse, List.reverse_append]

theorem stringifyRowC_no_nl (r : CSVRow) : '\n' ∉ stringifyRowC r := by
  intro h
  simp [stringifyRowC, quoteStr, escapeStr_no_nl] at h

theorem jsonl_roundtrip_count (name : List Char) (hext : extOf name = "jsonl".toList)
    (rows : List CSVRow) :
    parseFileForSampleCount name (joinC '\n' (rows.map stringifyRowC)) = rows.length := by
  unfold parseFileForSampleCount
  rw [hext, if_neg (by decide), if_pos rfl]
  cases rows with
  | nil => rfl
  | cons r rs =>
    have hnl : ∀ l ∈ (r :: rs).map stringifyRowC, '\n' ∉ l := by
      intro l hl
      rw [List.mem_map] at hl
      obtain ⟨r2, _, rfl⟩ := hl
      exact stringifyRowC_no_nl r2
    have htrim : jsTrim (joinC '\n' ((r :: rs).map stringifyRowC))
        = joinC '\n' ((r :: rs).map stringifyRowC) := by
      apply jsTrim_eq_self_of_bounds
      · intro c hc
        have hh : (joinC '\n' ((r :: rs).map stringifyRowC)).head? = some '{' := by
          cases rs with
          | nil => rfl
          | cons r2 rs2 => rfl
        rw [hh] at hc
        injection hc with hc
        subst hc
        decide
      · intro c hc
        rcases List.eq_nil_or_concat ((r :: rs).map stringifyRowC) with h | ⟨init, lastl, heq⟩
        · simp at h
        · obtain ⟨r2, hr2⟩ : ∃ r2, lastl = stringifyRowC r2 := by
            have hmem : lastl ∈ (r :: rs).map stringifyRowC := by
              rw [heq]; simp
            rw [List.mem_map] at hmem
            obtain ⟨r2, _, h⟩ := hmem
            exact ⟨r2, h.symm⟩
          have hlast : (joinC '\n' ((r :: rs).map stringifyRowC)).getLast? = some '}' := by
            rw [heq]
            cases init with
            | nil => simpa [joinC] using (hr2 ▸ stringifyRowC_getLast r2)
            | cons i is =>
              rw [show (i :: is).concat lastl = (i :: is) ++ [lastl] from by simp]
              rw [joinC_concat '\n' (i :: is) lastl (by simp)]
              rw [List.getLast?_append, hr2]
              rw [show ('\n' :: stringifyRowC r2) = [('\n' : Char)] ++ stringifyRowC r2
                from rfl]
              rw [List.getLast?_append, stringifyRowC_getLast r2]
              rfl
          rw [hlast] at hc
          injection hc with hc
          subst hc
          decide
    rw [htrim]
    rw [splitOnC_joinC '\n' _ (by simp) hnl]
    rw [List.filter_eq_self.mpr ?_]
    · simp
    · intro l hl
      rw [List.mem_map] at hl
      obtain ⟨r2, _, rfl⟩ := hl
      have : jsTrim (stringifyRowC r2) ≠ [] := by
        intro hnil
        have := (jsTrim_eq_nil_iff _).mp hnil '{' (by
          show '{' ∈ stringifyRowC r2
          exact List.mem_cons_self _ _)
        cases this
      simp [List.isEmpty_iff, this]

theorem csvLine_no_nl (r : CSVRow) (h1 : '\n' ∉ r.instruction) (h2 : '\n' ∉ r.input)
    (h3 : '\n' ∉ r.output) : '\n' ∉ csvLine r := by
  intro h
  simp [csvLine, csvEscape_no_nl _ h1, csvEscape_no_nl _ h2, csvEscape_no_nl _ h3] at h

theorem csv_roundtrip_count (name : List Char) (hext : extOf name = "csv".toList)
    (rows : List CSVRow)
    (hrows : ∀ r ∈ rows, '\n' ∉ r.instruction ∧ '\n' ∉ r.input ∧ '\n' ∉ r.output) :
    parseFileForSampleCount name (joinC '\n' (csvHeader :: rows.map csvLine))
      = rows.length := by
  have hcount := count_jsTrim_join csvHeader (rows.map csvLine) (by decide)
    (by
      intro l hl
      rw [List.mem_map] at hl
      obtain ⟨r2, hmem, rfl⟩ := hl
      exact csvLine_no_nl r2 (hrows r2 hmem).1 (hrows r2 hmem).2.1 (hrows r2 hmem).2.2)
    (fun _ => ⟨'i', by decide, by decide⟩)
    (by
      intro l hl
      rcases List.eq_nil_or_concat rows with rfl | ⟨rs0, rlast, rfl⟩
      · simp at hl
      · rw [show (rs0.concat rlast).map csvLine = (rs0.map csvLine) ++ [csvLine rlast]
          from by simp] at hl
        rw [List.getLast?_concat] at hl
        injection hl with hl
        subst hl
        exact ⟨'"', List.mem_cons_self _ _, by decide⟩)
  unfold parseFileForSampleCount
  rw [hext, if_neg (by decide), if_neg (by decide), if_pos rfl]
  rw [splitOnC_length, hcount]
  simp only [List.length_map]
  omega

/-- The file extension matching a declared dataset format. -/
def fmtExt : DatasetFormat → List Char
  | .json => "json".toList
  | .jsonl => "jsonl".toList
  | .csv => "csv".toList

/-- C2 counterexample: a single CSV row whose field embeds a newline
serializes (unescaped) to two physical lines, so the CSV branch counts 2
for a 1-row dataset. -/
theorem datasetCreate_count_counterexample :
    ([⟨"a\nb".toList, [], []⟩] : List CSVRow).length = 1 ∧
    parseFileForSampleCount "d.csv".toList
      (convertRowsToFormat [⟨"a\nb".toList, [], []⟩] .csv) = 2 := ⟨rfl, rfl⟩

/-- C2 amended: the create path stores `samples = rows.length`, and for a
file of the matching extension `parseFileForSampleCount` recovers exactly
`rows.length` from `convertRowsToFormat rows format` — unconditionally for
`json` and `jsonl` (including fields with quotes and newlines, which
`JSON.stringify` escapes), and for `csv` provided no field contains a
newline (the CSV serializer escapes only quotes). -/
theorem datasetCreate_count_consistent (now : Nat) (today dname name : List Char)
    (rows : List CSVRow) (fmt : DatasetFormat)
    (hext : extOf name = fmtExt fmt)
    (hcsv : fmt = .csv →
      ∀ r ∈ rows, '\n' ∉ r.instruction ∧ '\n' ∉ r.input ∧ '\n' ∉ r.output) :
    (handleSaveCreate now today dname rows fmt).samples = rows.length ∧
    parseFileForSampleCount name (convertRowsToFormat rows fmt) = rows.length := by
  refine ⟨rfl, ?_⟩
  cases fmt with
  | json =>
    rw [show convertRowsToFormat rows .json = stringifyRowsPretty rows from rfl]
    unfold parseFileForSampleCount
    rw [hext, show fmtExt .json = "json".toList from rfl, if_pos rfl]
    rw [jsonParse_stringifyRows]
    simp
  | jsonl => exact jsonl_roundtrip_count name (by rw [hext]; rfl) rows
  | csv => exact csv_roundtrip_count name (by rw [hext]; rfl) rows (hcsv rfl)

/-- C2 witness: a JSONL dataset whose single row embeds a quote and a
newline still counts exactly one sample. -/
theorem datasetCreate_count_consistent_witness :
    parseFileForSampleCount "d.jsonl".toList
      (convertRowsToFormat [⟨"a\"b\nc".toList, [], []⟩] .jsonl) = 1 :=
  (datasetCreate_count_consistent 0 [] [] "d.jsonl".toList
    [⟨"a\"b\nc".toList, [], []⟩] .jsonl rfl (fun h => nomatch h)).2


end QloraApp
